import Mathlib

/-!
Verification of the DNS service-discovery provider cache
(`pkg/discovery/dns/provider.go`).

The provider keeps a map `resolved` from an address specification to the
list of targets most recently resolved for it.  `Resolve` refreshes the
map from an input list of specs (resolving `qtype+name` entries through an
abstract resolver, storing literals as-is, skipping failed lookups) and
then prunes every key that is absent from the input list.  `Addresses`
flattens the map into one list of targets.

Shallow embedding choices:
* strings are `List Char` (`Str`);
* the Go map is an association list with map update/delete semantics
  (`Cache`), keys unique in any state reachable from the empty provider;
* the resolver is a function `Str → Str → Option (List Str)` taking the
  name and the query type; `none` is a failed lookup;
* `Resolve` returns the new cache paired with the Go `error` result,
  modelled as `Option Str` (`none` = nil error).
-/

namespace ThanosDNS

/-- Strings of the Go source, modelled as lists of characters. -/
abbrev Str := List Char

/-- Resolver capability: `Resolve(ctx, name, qtype)` returns the resolved
targets or fails.  The context is irrelevant to the provider logic. -/
abbrev Resolver := Str → Str → Option (List Str)

/-- The provider field `resolved map[string][]string`, modelled as an
association list. -/
abbrev Cache := List (Str × List Str)

/-- Go map read `m[k]`: the value at the first matching key, if any. -/
def mapLookup : Cache → Str → Option (List Str)
  | [], _ => none
  | (k', v') :: rest, k => if k' = k then some v' else mapLookup rest k

/-- Go map write `m[k] = v`: replace the first binding of `k`, or append a
new one. -/
def mapUpdate : Cache → Str → List Str → Cache
  | [], k, v => [(k, v)]
  | (k', v') :: rest, k, v =>
    if k' = k then (k, v) :: rest else (k', v') :: mapUpdate rest k v

/-- Go `delete(m, k)`: remove every binding of `k`. -/
def mapDelete : Cache → Str → Cache
  | [], _ => []
  | (k', v') :: rest, k =>
    if k' = k then mapDelete rest k else (k', v') :: mapDelete rest k

/-- The helper `contains(slice []string, str string) bool` of the source:
linear scan with early return on the first equal element. -/
def contains : List Str → Str → Bool
  | [], _ => false
  | s :: rest, str => if str = s then true else contains rest str

/-- Embedding of `strings.SplitN(addr, "+", 2)`: `none` when `addr` has no
`'+'` (the Go call returns a one-element slice), otherwise the part before
the first `'+'` and the entire remainder. -/
def splitFirstPlus : Str → Option (Str × Str)
  | [] => none
  | c :: cs =>
    if c = '+' then some ([], cs)
    else
      match splitFirstPlus cs with
      | none => none
      | some (q, n) => some (c :: q, n)

/-- One iteration of the `for _, addr := range addrs` loop of
`Provider.Resolve`: store a literal, or consult the resolver and either
overwrite the entry (success) or leave the cache untouched (failure). -/
def resolveStep (resolver : Resolver) (resolved : Cache) (addr : Str) : Cache :=
  match splitFirstPlus addr with
  | none => mapUpdate resolved addr [addr]
  | some (qtype, name) =>
    match resolver name qtype with
    | none => resolved
    | some resolvedHosts => mapUpdate resolved addr resolvedHosts

/-- The whole per-entry loop of `Provider.Resolve` over the input list. -/
def resolveLoop (resolver : Resolver) (resolved : Cache) (addrs : List Str) : Cache :=
  addrs.foldl (resolveStep resolver) resolved

/-- The keys collected into `entriesToDelete`: every stored address not
contained in the input list. -/
def entriesToDelete (resolved : Cache) (addrs : List Str) : List Str :=
  (resolved.map Prod.fst).filter (fun k => !(contains addrs k))

/-- `Provider.Resolve(ctx, addrs)`: run the per-entry loop, delete the
collected stale keys, and return `nil`. -/
def Provider.Resolve (resolver : Resolver) (resolved : Cache) (addrs : List Str) :
    Cache × Option Str :=
  let afterLoop := resolveLoop resolver resolved addrs
  ((entriesToDelete afterLoop addrs).foldl mapDelete afterLoop, none)

/-- `Provider.Addresses()`: append every stored target list to an
initially empty result. -/
def Provider.Addresses (resolved : Cache) : List Str :=
  resolved.foldl (fun result p => result ++ p.2) []

/-! ### Basic lemmas about the map operations -/

theorem mapLookup_mapUpdate_self (m : Cache) (k : Str) (v : List Str) :
    mapLookup (mapUpdate m k v) k = some v := by
  induction m with
  | nil => simp [mapUpdate, mapLookup]
  | cons p rest ih =>
    obtain ⟨k', v'⟩ := p
    by_cases h : k' = k
    · simp [mapUpdate, mapLookup, h]
    · simp [mapUpdate, mapLookup, h, ih]

theorem mapLookup_mapUpdate_ne (m : Cache) (k k' : Str) (v : List Str)
    (h : k' ≠ k) : mapLookup (mapUpdate m k v) k' = mapLookup m k' := by
  have hk : k ≠ k' := fun he => h he.symm
  induction m with
  | nil => simp [mapUpdate, mapLookup, hk]
  | cons p rest ih =>
    obtain ⟨a, b⟩ := p
    by_cases ha : a = k
    · subst ha
      simp [mapUpdate, mapLookup, hk]
    · simp [mapUpdate, mapLookup, ha, ih]

theorem mapUpdate_cons_self (a : Str) (b : List Str) (rest : Cache) (v : List Str) :
    mapUpdate ((a, b) :: rest) a v = (a, v) :: rest := by
  simp [mapUpdate]

theorem mapUpdate_cons_ne (a k : Str) (b : List Str) (rest : Cache) (v : List Str)
    (ha : a ≠ k) : mapUpdate ((a, b) :: rest) k v = (a, b) :: mapUpdate rest k v := by
  simp [mapUpdate, ha]

theorem mapUpdate_of_lookup_eq (m : Cache) (k : Str) (v : List Str)
    (h : mapLookup m k = some v) : mapUpdate m k v = m := by
  induction m with
  | nil => simp [mapLookup] at h
  | cons p rest ih =>
    obtain ⟨a, b⟩ := p
    by_cases ha : a = k
    · subst ha
      simp [mapLookup] at h
      simp [mapUpdate, h]
    · simp [mapLookup, ha] at h
      simp [mapUpdate, ha, ih h]

theorem mapLookup_mem (m : Cache) (k : Str) (v : List Str)
    (h : mapLookup m k = some v) : (k, v) ∈ m := by
  induction m with
  | nil => simp [mapLookup] at h
  | cons p rest ih =>
    obtain ⟨a, b⟩ := p
    by_cases ha : a = k
    · subst ha
      simp [mapLookup] at h
      subst h
      exact List.mem_cons_self _ _
    · simp [mapLookup, ha] at h
      exact List.mem_cons_of_mem _ (ih h)

theorem contains_eq_true_iff (l : List Str) (x : Str) :
    contains l x = true ↔ x ∈ l := by
  induction l with
  | nil => simp [contains]
  | cons s rest ih =>
    by_cases h : x = s
    · simp [contains, h]
    · simp [contains, h, ih]

theorem mapDelete_eq_filter (m : Cache) (k : Str) :
    mapDelete m k = m.filter (fun p => !(p.1 = k : Bool)) := by
  induction m with
  | nil => simp [mapDelete]
  | cons p rest ih =>
    obtain ⟨a, b⟩ := p
    by_cases ha : a = k
    · simp [mapDelete, ha, List.filter, ih]
    · simp [mapDelete, ha, List.filter, ih]

theorem foldl_mapDelete_eq_filter (ks : List Str) (m : Cache) :
    ks.foldl mapDelete m = m.filter (fun p => !(contains ks p.1)) := by
  induction ks generalizing m with
  | nil => simp [contains]
  | cons k rest ih =>
    rw [List.foldl_cons, ih, mapDelete_eq_filter, List.filter_filter]
    apply List.filter_congr
    intro p _
    by_cases h : p.1 = k
    · simp [contains, h]
    · simp [contains, h]

theorem mapLookup_filter (m : Cache) (p : Str × List Str → Bool) (k : Str)
    (hp : ∀ v, p (k, v) = true) :
    mapLookup (m.filter p) k = mapLookup m k := by
  induction m with
  | nil => rfl
  | cons q rest ih =>
    obtain ⟨a, b⟩ := q
    by_cases ha : a = k
    · subst ha
      rw [List.filter_cons]
      simp [hp b, mapLookup]
    · rw [List.filter_cons]
      cases hq : p (a, b)
      · simp [mapLookup, ha, ih]
      · simp [mapLookup, ha, ih]

/-! ### Lemmas about the per-entry loop -/

theorem resolveStep_lookup_ne (r : Resolver) (m : Cache) (a addr : Str)
    (h : a ≠ addr) :
    mapLookup (resolveStep r m a) addr = mapLookup m addr := by
  have h' : addr ≠ a := fun he => h he.symm
  cases hs : splitFirstPlus a with
  | none =>
    simp only [resolveStep, hs]
    exact mapLookup_mapUpdate_ne _ _ _ _ h'
  | some qn =>
    obtain ⟨q, n⟩ := qn
    cases hr : r n q with
    | none => simp only [resolveStep, hs, hr]
    | some hosts =>
      simp only [resolveStep, hs, hr]
      exact mapLookup_mapUpdate_ne _ _ _ _ h'

theorem resolveLoop_lookup_not_mem (r : Resolver) (m : Cache) (l : List Str)
    (addr : Str) (h : addr ∉ l) :
    mapLookup (resolveLoop r m l) addr = mapLookup m addr := by
  induction l generalizing m with
  | nil => rfl
  | cons a rest ih =>
    have ha : a ≠ addr := fun he => h (he ▸ List.mem_cons_self a rest)
    have hrest : addr ∉ rest := fun hm => h (List.mem_cons_of_mem _ hm)
    rw [resolveLoop, List.foldl_cons, ← resolveLoop, ih _ hrest,
      resolveStep_lookup_ne r m a addr ha]

theorem resolveLoop_lookup_fail (r : Resolver) (m : Cache) (l : List Str)
    (addr qtype name : Str) (hs : splitFirstPlus addr = some (qtype, name))
    (hr : r name qtype = none) :
    mapLookup (resolveLoop r m l) addr = mapLookup m addr := by
  induction l generalizing m with
  | nil => rfl
  | cons a rest ih =>
    rw [resolveLoop, List.foldl_cons, ← resolveLoop, ih]
    by_cases ha : a = addr
    · subst ha
      simp only [resolveStep, hs, hr]
    · exact resolveStep_lookup_ne r m a addr ha

theorem resolveLoop_lookup_literal (r : Resolver) (m : Cache) (l : List Str)
    (addr : Str) (hs : splitFirstPlus addr = none) (h : addr ∈ l) :
    mapLookup (resolveLoop r m l) addr = some [addr] := by
  induction l generalizing m with
  | nil => cases h
  | cons a rest ih =>
    rw [resolveLoop, List.foldl_cons, ← resolveLoop]
    by_cases hrest : addr ∈ rest
    · exact ih _ hrest
    · have ha : a = addr := by
        cases List.mem_cons.mp h with
        | inl h' => exact h'.symm
        | inr h' => exact absurd h' hrest
      subst ha
      rw [resolveLoop_lookup_not_mem r _ rest a hrest]
      simp only [resolveStep, hs]
      exact mapLookup_mapUpdate_self m a [a]

theorem resolveLoop_lookup_success (r : Resolver) (m : Cache) (l : List Str)
    (addr qtype name : Str) (hosts : List Str)
    (hs : splitFirstPlus addr = some (qtype, name))
    (hr : r name qtype = some hosts) (h : addr ∈ l) :
    mapLookup (resolveLoop r m l) addr = some hosts := by
  induction l generalizing m with
  | nil => cases h
  | cons a rest ih =>
    rw [resolveLoop, List.foldl_cons, ← resolveLoop]
    by_cases hrest : addr ∈ rest
    · exact ih _ hrest
    · have ha : a = addr := by
        cases List.mem_cons.mp h with
        | inl h' => exact h'.symm
        | inr h' => exact absurd h' hrest
      subst ha
      rw [resolveLoop_lookup_not_mem r _ rest a hrest]
      simp only [resolveStep, hs, hr]
      exact mapLookup_mapUpdate_self m a hosts

/-! ### The prune step as a filter -/

theorem contains_entriesToDelete (m : Cache) (addrs : List Str) (k : Str)
    (hk : k ∈ m.map Prod.fst) :
    contains (entriesToDelete m addrs) k = !(contains addrs k) := by
  cases hb : contains addrs k
  · rw [Bool.not_false, contains_eq_true_iff]
    unfold entriesToDelete
    rw [List.mem_filter]
    exact ⟨hk, by rw [hb]; rfl⟩
  · rw [Bool.not_true]
    cases hc : contains (entriesToDelete m addrs) k
    · rfl
    · exfalso
      rw [contains_eq_true_iff] at hc
      unfold entriesToDelete at hc
      rw [List.mem_filter, hb] at hc
      exact absurd hc.2 (by simp)

theorem Resolve_fst_eq_filter (r : Resolver) (m : Cache) (addrs : List Str) :
    (Provider.Resolve r m addrs).1 =
      (resolveLoop r m addrs).filter (fun p => contains addrs p.1) := by
  show (entriesToDelete (resolveLoop r m addrs) addrs).foldl mapDelete
      (resolveLoop r m addrs) = _
  rw [foldl_mapDelete_eq_filter]
  apply List.filter_congr
  intro p hp
  rw [contains_entriesToDelete _ _ _ (List.mem_map_of_mem _ hp), Bool.not_not]

/-! ### Lemmas about `Addresses` -/

theorem Addresses_foldl_aux (m : Cache) (acc : List Str) :
    m.foldl (fun result p => result ++ p.2) acc = acc ++ (m.map Prod.snd).flatten := by
  induction m generalizing acc with
  | nil => simp
  | cons p rest ih => simp [ih, List.append_assoc]

theorem Addresses_eq_flatten (m : Cache) :
    Provider.Addresses m = (m.map Prod.snd).flatten := by
  rw [Provider.Addresses, Addresses_foldl_aux, List.nil_append]

theorem mem_Addresses_of_mem (m : Cache) (k : Str) (v : List Str) (x : Str)
    (hm : (k, v) ∈ m) (hx : x ∈ v) : x ∈ Provider.Addresses m := by
  rw [Addresses_eq_flatten]
  exact List.mem_flatten.mpr ⟨v, List.mem_map_of_mem Prod.snd hm, hx⟩

/-! ### Key uniqueness is preserved -/

theorem mem_keys_mapUpdate (m : Cache) (k : Str) (v : List Str) (x : Str)
    (h : x ∈ (mapUpdate m k v).map Prod.fst) :
    x ∈ m.map Prod.fst ∨ x = k := by
  induction m with
  | nil =>
    simp only [mapUpdate, List.map_cons, List.map_nil, List.mem_singleton] at h
    exact Or.inr h
  | cons p rest ih =>
    obtain ⟨a, b⟩ := p
    by_cases ha : a = k
    · subst ha
      rw [mapUpdate_cons_self, List.map_cons, List.mem_cons] at h
      cases h with
      | inl h' => exact Or.inr h'
      | inr h' =>
        exact Or.inl (by rw [List.map_cons]; exact List.mem_cons.mpr (Or.inr h'))
    · rw [mapUpdate_cons_ne a k b rest v ha, List.map_cons, List.mem_cons] at h
      cases h with
      | inl h' =>
        exact Or.inl (by rw [List.map_cons]; exact List.mem_cons.mpr (Or.inl h'))
      | inr h' =>
        cases ih h' with
        | inl h'' =>
          exact Or.inl (by rw [List.map_cons]; exact List.mem_cons.mpr (Or.inr h''))
        | inr h'' => exact Or.inr h''

theorem mapUpdate_keys_nodup (m : Cache) (k : Str) (v : List Str)
    (h : (m.map Prod.fst).Nodup) : ((mapUpdate m k v).map Prod.fst).Nodup := by
  induction m with
  | nil => simp [mapUpdate]
  | cons p rest ih =>
    obtain ⟨a, b⟩ := p
    rw [List.map_cons, List.nodup_cons] at h
    by_cases ha : a = k
    · subst ha
      rw [mapUpdate_cons_self, List.map_cons]
      exact List.nodup_cons.mpr h
    · rw [mapUpdate_cons_ne a k b rest v ha, List.map_cons]
      refine List.nodup_cons.mpr ⟨?_, ih h.2⟩
      intro hx
      cases mem_keys_mapUpdate rest k v a hx with
      | inl h' => exact h.1 h'
      | inr h' => exact ha h'

theorem resolveStep_keys_nodup (r : Resolver) (m : Cache) (a : Str)
    (h : (m.map Prod.fst).Nodup) :
    ((resolveStep r m a).map Prod.fst).Nodup := by
  cases hs : splitFirstPlus a with
  | none =>
    simp only [resolveStep, hs]
    exact mapUpdate_keys_nodup m a [a] h
  | some qn =>
    obtain ⟨q, n⟩ := qn
    cases hr : r n q with
    | none => simpa only [resolveStep, hs, hr] using h
    | some hosts =>
      simp only [resolveStep, hs, hr]
      exact mapUpdate_keys_nodup m a hosts h

theorem resolveLoop_keys_nodup (r : Resolver) (m : Cache) (l : List Str)
    (h : (m.map Prod.fst).Nodup) :
    ((resolveLoop r m l).map Prod.fst).Nodup := by
  induction l generalizing m with
  | nil => exact h
  | cons a rest ih =>
    rw [resolveLoop, List.foldl_cons, ← resolveLoop]
    exact ih _ (resolveStep_keys_nodup r m a h)

theorem filter_keys_nodup (m : Cache) (p : Str × List Str → Bool)
    (h : (m.map Prod.fst).Nodup) : ((m.filter p).map Prod.fst).Nodup :=
  List.Nodup.sublist (List.Sublist.map Prod.fst (List.filter_sublist m)) h

/-! ### A second `Resolve` with the same inputs is the identity -/

theorem resolveLoop_eq_self (r : Resolver) (m : Cache) (l : List Str)
    (h : ∀ a ∈ l, resolveStep r m a = m) : resolveLoop r m l = m := by
  induction l with
  | nil => rfl
  | cons a rest ih =>
    rw [resolveLoop, List.foldl_cons, h a (List.mem_cons_self a rest), ← resolveLoop]
    exact ih fun b hb => h b (List.mem_cons_of_mem a hb)

theorem Resolve_lookup_of_mem (r : Resolver) (m : Cache) (addrs : List Str)
    (addr : Str) (h : addr ∈ addrs) :
    mapLookup (Provider.Resolve r m addrs).1 addr
      = mapLookup (resolveLoop r m addrs) addr := by
  rw [Resolve_fst_eq_filter]
  exact mapLookup_filter _ _ _ fun v => (contains_eq_true_iff addrs addr).mpr h

theorem Resolve_step_fix (r : Resolver) (m : Cache) (addrs : List Str)
    (a : Str) (ha : a ∈ addrs) :
    resolveStep r (Provider.Resolve r m addrs).1 a = (Provider.Resolve r m addrs).1 := by
  cases hs : splitFirstPlus a with
  | none =>
    have hl : mapLookup (Provider.Resolve r m addrs).1 a = some [a] := by
      rw [Resolve_lookup_of_mem r m addrs a ha]
      exact resolveLoop_lookup_literal r m addrs a hs ha
    simp only [resolveStep, hs]
    exact mapUpdate_of_lookup_eq _ _ _ hl
  | some qn =>
    obtain ⟨q, n⟩ := qn
    cases hr : r n q with
    | none => simp only [resolveStep, hs, hr]
    | some hosts =>
      have hl : mapLookup (Provider.Resolve r m addrs).1 a = some hosts := by
        rw [Resolve_lookup_of_mem r m addrs a ha]
        exact resolveLoop_lookup_success r m addrs a q n hosts hs hr ha
      simp only [resolveStep, hs, hr]
      exact mapUpdate_of_lookup_eq _ _ _ hl

theorem Resolve_idem_cache (r : Resolver) (m : Cache) (addrs : List Str) :
    (Provider.Resolve r (Provider.Resolve r m addrs).1 addrs).1
      = (Provider.Resolve r m addrs).1 := by
  have hloop : resolveLoop r (Provider.Resolve r m addrs).1 addrs
      = (Provider.Resolve r m addrs).1 :=
    resolveLoop_eq_self _ _ _ fun a ha => Resolve_step_fix r m addrs a ha
  rw [Resolve_fst_eq_filter, hloop]
  apply List.filter_eq_self.mpr
  intro p hp
  rw [Resolve_fst_eq_filter] at hp
  exact (List.mem_filter.mp hp).2

/-! ### Characterisation of the split -/

theorem splitFirstPlus_eq_none_iff (l : Str) :
    splitFirstPlus l = none ↔ '+' ∉ l := by
  induction l with
  | nil => simp [splitFirstPlus]
  | cons c cs ih =>
    by_cases hc : c = '+'
    · subst hc
      simp [splitFirstPlus]
    · have hc' : ¬('+' = c) := fun he => hc he.symm
      cases hs : splitFirstPlus cs with
      | none =>
        have hmem : '+' ∉ cs := ih.mp hs
        simp only [splitFirstPlus, if_neg hc, hs]
        simp [hc', hmem]
      | some qn =>
        obtain ⟨q, n⟩ := qn
        have hmem : '+' ∈ cs := by
          by_contra hn
          have := ih.mpr hn
          rw [hs] at this
          cases this
        simp only [splitFirstPlus, if_neg hc, hs]
        simp [hc', hmem]

theorem splitFirstPlus_append (pre rest : Str) (h : '+' ∉ pre) :
    splitFirstPlus (pre ++ '+' :: rest) = some (pre, rest) := by
  induction pre with
  | nil => simp [splitFirstPlus]
  | cons c cs ih =>
    have hc : ¬(c = '+') := fun he => h (he ▸ List.mem_cons_self c cs)
    have hcs : '+' ∉ cs := fun hm => h (List.mem_cons_of_mem c hm)
    rw [List.cons_append]
    simp only [splitFirstPlus, if_neg hc, ih hcs]

/-! ### At most one cache entry per key -/

theorem countP_key_le_one (m : Cache) (addr : Str)
    (h : (m.map Prod.fst).Nodup) :
    m.countP (fun p => decide (p.1 = addr)) ≤ 1 := by
  induction m with
  | nil => simp
  | cons p rest ih =>
    obtain ⟨a, b⟩ := p
    rw [List.map_cons, List.nodup_cons] at h
    by_cases ha : a = addr
    · subst ha
      have hzero : rest.countP (fun p => decide (p.1 = a)) = 0 := by
        rw [List.countP_eq_zero]
        intro q hq
        simp only [decide_eq_true_eq]
        intro he
        have hmem : q.1 ∈ rest.map Prod.fst := List.mem_map_of_mem Prod.fst hq
        rw [he] at hmem
        exact h.1 hmem
      rw [List.countP_cons, hzero]
      simp
    · rw [List.countP_cons]
      simp [ha, ih h.2]

/-! ### The claims -/

/-- Claim C1: when the lookup for an entry `qtype+name` of the input list
fails, the cache entry for that spec is left exactly as it was before the
call (absent if never resolved), and the loop continues: processing the
failing entry first and then a remainder is the same as processing the
remainder alone. -/
theorem resolve_failure_isolation (r : Resolver) (m : Cache) (addrs : List Str)
    (addr qtype name : Str)
    (hsplit : splitFirstPlus addr = some (qtype, name))
    (hfail : r name qtype = none) :
    (addr ∈ addrs →
      mapLookup (Provider.Resolve r m addrs).1 addr = mapLookup m addr)
    ∧ ∀ rest : List Str, resolveLoop r m (addr :: rest) = resolveLoop r m rest := by
  constructor
  · intro hmem
    rw [Resolve_lookup_of_mem r m addrs addr hmem]
    exact resolveLoop_lookup_fail r m addrs addr qtype name hsplit hfail
  · intro rest
    rw [resolveLoop, List.foldl_cons, ← resolveLoop]
    have hstep : resolveStep r m addr = m := by
      simp only [resolveStep, hsplit, hfail]
    rw [hstep]

theorem resolve_failure_isolation_witness :
    splitFirstPlus ['d', 'n', 's', '+', 'x'] = some (['d', 'n', 's'], ['x'])
    ∧ mapLookup (Provider.Resolve (fun _ _ => none)
          [(['d', 'n', 's', '+', 'x'], [['o']])] [['d', 'n', 's', '+', 'x']]).1
        ['d', 'n', 's', '+', 'x']
      = mapLookup [(['d', 'n', 's', '+', 'x'], [['o']])] ['d', 'n', 's', '+', 'x'] :=
  ⟨by decide,
    (resolve_failure_isolation (fun _ _ => none)
      [(['d', 'n', 's', '+', 'x'], [['o']])] [['d', 'n', 's', '+', 'x']]
      ['d', 'n', 's', '+', 'x'] ['d', 'n', 's'] ['x']
      (by decide) rfl).1 (by decide)⟩

/-- Claim C2: after `Resolve` returns, every key present in the cache is an
element of the input list; in particular `Resolve` with an empty input list
empties the cache.  The membership statement is over whole pairs, so a key
absent from the input is removed structurally, not left as an empty set. -/
theorem resolve_prune_invariant (r : Resolver) (m : Cache) (addrs : List Str) :
    (∀ k v, (k, v) ∈ (Provider.Resolve r m addrs).1 → k ∈ addrs)
    ∧ (Provider.Resolve r m []).1 = [] := by
  constructor
  · intro k v hm
    rw [Resolve_fst_eq_filter] at hm
    exact (contains_eq_true_iff addrs k).mp (List.mem_filter.mp hm).2
  · rw [Resolve_fst_eq_filter]
    simp [contains]

theorem resolve_prune_invariant_witness :
    (['a'] : Str) ∈ ([['a']] : List Str) :=
  (resolve_prune_invariant (fun _ _ => none) [] [['a']]).1 ['a'] [['a']] (by decide)

/-- Claim C3: for an entry `qtype+name` whose lookup succeeds, `Resolve`
overwrites the cache entry for that spec with exactly the returned target
list, even when that list is empty. -/
theorem resolve_success_overwrites (r : Resolver) (m : Cache) (addrs : List Str)
    (addr qtype name : Str) (hosts : List Str)
    (hsplit : splitFirstPlus addr = some (qtype, name))
    (hok : r name qtype = some hosts) (hmem : addr ∈ addrs) :
    mapLookup (Provider.Resolve r m addrs).1 addr = some hosts := by
  rw [Resolve_lookup_of_mem r m addrs addr hmem]
  exact resolveLoop_lookup_success r m addrs addr qtype name hosts hsplit hok hmem

theorem resolve_success_overwrites_witness :
    mapLookup (Provider.Resolve (fun _ _ => some [])
        [] [['d', '+', 'x']]).1 ['d', '+', 'x'] = some [] :=
  resolve_success_overwrites (fun _ _ => some []) [] [['d', '+', 'x']]
    ['d', '+', 'x'] ['d'] ['x'] [] (by decide) rfl (by decide)

/-- Claim C4: an address spec with no `'+'` character is stored as the
singleton `[addr]` for every resolver (no resolver call can make it fail),
and the literal string appears unchanged in a subsequent `Addresses`. -/
theorem resolve_literal_stored (r : Resolver) (m : Cache) (addrs : List Str)
    (addr : Str) (hplus : '+' ∉ addr) (hmem : addr ∈ addrs) :
    mapLookup (Provider.Resolve r m addrs).1 addr = some [addr]
    ∧ addr ∈ Provider.Addresses (Provider.Resolve r m addrs).1 := by
  have hsplit : splitFirstPlus addr = none :=
    (splitFirstPlus_eq_none_iff addr).mpr hplus
  have hl : mapLookup (Provider.Resolve r m addrs).1 addr = some [addr] := by
    rw [Resolve_lookup_of_mem r m addrs addr hmem]
    exact resolveLoop_lookup_literal r m addrs addr hsplit hmem
  exact ⟨hl, mem_Addresses_of_mem _ addr [addr] addr (mapLookup_mem _ _ _ hl)
    (List.mem_singleton.mpr rfl)⟩

theorem resolve_literal_stored_witness :
    mapLookup (Provider.Resolve (fun _ _ => none) [] [['a']]).1 ['a'] = some [['a']]
    ∧ ['a'] ∈ Provider.Addresses (Provider.Resolve (fun _ _ => none) [] [['a']]).1 :=
  resolve_literal_stored (fun _ _ => none) [] [['a']] ['a'] (by decide) (by decide)

/-- Claim C5: `Addresses` returns the concatenation of every stored target
list — each string as many times as it occurs across the stored sets — and
the empty sequence on the empty cache.  (In the pure embedding the result
is a value, so the freshness of the returned copy is immediate.) -/
theorem addresses_flattens (m : Cache) :
    Provider.Addresses m = (m.map Prod.snd).flatten
    ∧ Provider.Addresses ([] : Cache) = [] :=
  ⟨Addresses_eq_flatten m, rfl⟩

/-- Claim C6: `Resolve` always returns a nil error, for every input list,
cache state and resolver behaviour. -/
theorem resolve_returns_nil (r : Resolver) (m : Cache) (addrs : List Str) :
    (Provider.Resolve r m addrs).2 = none := rfl

/-- Claim C7: running `Resolve` twice in succession with the same input
list against the same (deterministic) resolver yields the same `Addresses`
snapshot after the second call as after the first. -/
theorem resolve_idempotent (r : Resolver) (m : Cache) (addrs : List Str) :
    Provider.Addresses (Provider.Resolve r (Provider.Resolve r m addrs).1 addrs).1
      = Provider.Addresses (Provider.Resolve r m addrs).1 := by
  rw [Resolve_idem_cache]

/-- Claim C8: a spec of the form `pre + rest` with no `'+'` in `pre` splits
at the first `'+'` only: the qtype is `pre` and the name handed to the
resolver is the entire remainder `rest`, which may itself contain `'+'`
characters. -/
theorem resolve_split_first_plus (pre rest : Str) (h : '+' ∉ pre) :
    splitFirstPlus (pre ++ '+' :: rest) = some (pre, rest)
    ∧ ∀ (r : Resolver) (m : Cache),
        resolveStep r m (pre ++ '+' :: rest)
          = match r rest pre with
            | none => m
            | some hosts => mapUpdate m (pre ++ '+' :: rest) hosts := by
  have hs := splitFirstPlus_append pre rest h
  refine ⟨hs, ?_⟩
  intro r m
  simp only [resolveStep, hs]

theorem resolve_split_first_plus_witness :
    splitFirstPlus (['a'] ++ '+' :: ['b', '+', 'c']) = some (['a'], ['b', '+', 'c']) :=
  (resolve_split_first_plus ['a'] ['b', '+', 'c'] (by decide)).1

/-- Claim C10: starting from a cache with unique keys (as a Go map always
has), the cache after `Resolve` again has unique keys, so even when a spec
occurs several times in the input list it owns at most one cache entry and
its targets are reported once by `Addresses`, not once per occurrence. -/
theorem resolve_duplicate_specs (r : Resolver) (m : Cache) (addrs : List Str)
    (addr : Str) (h : (m.map Prod.fst).Nodup) :
    ((Provider.Resolve r m addrs).1.map Prod.fst).Nodup
    ∧ (Provider.Resolve r m addrs).1.countP (fun p => decide (p.1 = addr)) ≤ 1 := by
  have hnodup : ((Provider.Resolve r m addrs).1.map Prod.fst).Nodup := by
    rw [Resolve_fst_eq_filter]
    exact filter_keys_nodup _ _ (resolveLoop_keys_nodup r m addrs h)
  exact ⟨hnodup, countP_key_le_one _ addr hnodup⟩

theorem resolve_duplicate_specs_witness :
    ((Provider.Resolve (fun _ _ => none) [] [['a'], ['a']]).1.map Prod.fst).Nodup
    ∧ (Provider.Resolve (fun _ _ => none) [] [['a'], ['a']]).1.countP
        (fun p => decide (p.1 = ['a'])) ≤ 1 :=
  resolve_duplicate_specs (fun _ _ => none) [] [['a'], ['a']] ['a'] (by decide)

end ThanosDNS
